import Mathlib

/-!
Verification of the signed-URL file-access subsystem of the ergoflow
repository against its natural-language specification.

The embedding works on `List Char` (JavaScript strings are sequences of
code units; every string handled here is ASCII).  JavaScript string
primitives used by the source (`split`, `includes`, `indexOf`, `join`,
`atob`, `JSON.parse`, `decodeURIComponent`) are modelled by executable
Lean functions below.  `JSON.parse` is modelled for flat objects whose
values are unescaped strings or non-negative integers — exactly the
shape of the token payloads handled by this subsystem.
-/

/-- Convert a Lean string literal to the `List Char` representation used
throughout this development. -/
def strL (s : String) : List Char :=
  s.data

/-- First element of a list, or a default: models JavaScript
`xs[0]` on the non-empty result of `String.split`. -/
def headD {α : Type} (l : List α) (d : α) : α :=
  match l with
  | [] => d
  | x :: _ => x

/-- Decimal digits of a natural number (auxiliary, fuelled). -/
def natCharsAux : Nat → Nat → List Char
  | 0, _ => []
  | fuel + 1, n =>
    if n < 10 then [Char.ofNat (48 + n)]
    else natCharsAux fuel (n / 10) ++ [Char.ofNat (48 + n % 10)]

/-- Decimal rendering of a natural number, as produced by
`JSON.stringify` for the numeric grant fields. -/
def natChars (n : Nat) : List Char :=
  natCharsAux (n + 1) n

/-- Boolean test that `m` occurs at the start of `l`. -/
def leadsWith (m l : List Char) : Bool :=
  match m, l with
  | [], _ => true
  | _ :: _, [] => false
  | a :: as, b :: bs => a == b && leadsWith as bs

/-- Boolean substring test: models JavaScript `l.includes(m)`. -/
def containsSeq (m l : List Char) : Bool :=
  match l with
  | [] => leadsWith m []
  | _ :: t => leadsWith m l || containsSeq m t

/-- Split a character list at every occurrence of a separator character:
models JavaScript `s.split(c)` for a one-character separator
(`"a?b".split('?') = ["a","b"]`, `"".split('?') = [""]`). -/
def splitOnCh (c : Char) : List Char → List (List Char)
  | [] => [[]]
  | x :: xs =>
    let r := splitOnCh c xs
    if x = c then [] :: r
    else
      match r with
      | [] => [[x]]
      | h :: t => (x :: h) :: t

/-- Index of the first element equal to `x`: models JavaScript
`parts.indexOf(x)`, with `none` for `-1`. -/
def indexOfSeg (x : List Char) : List (List Char) → Option Nat
  | [] => none
  | h :: t => if h = x then some 0 else (indexOfSeg x t).map (· + 1)

/-- Join path parts with `'/'`: models JavaScript `parts.join('/')`. -/
def joinSlash : List (List Char) → List Char
  | [] => []
  | [x] => x
  | x :: y :: t => x ++ '/' :: joinSlash (y :: t)

/-- Element at index `i`, or a default.  Models JavaScript indexing
`parts[i]` at indices the source has already bounds-checked. -/
def getPart (l : List (List Char)) (i : Nat) : List Char :=
  l.getD i []

/-- Value of a hexadecimal digit, `none` for any other character:
used by the model of `decodeURIComponent`. -/
def hexVal (c : Char) : Option Nat :=
  if '0' ≤ c ∧ c ≤ '9' then some (c.toNat - 48)
  else if 'a' ≤ c ∧ c ≤ 'f' then some (c.toNat - 87)
  else if 'A' ≤ c ∧ c ≤ 'F' then some (c.toNat - 55)
  else none

/-- Model of JavaScript `decodeURIComponent`, restricted to percent
escapes of single-byte (ASCII) code points; a malformed escape yields
`none`, modelling the thrown `URIError`. -/
def percentDecode : List Char → Option (List Char)
  | [] => some []
  | '%' :: rest =>
    match rest with
    | h1 :: h2 :: rest' =>
      match hexVal h1, hexVal h2 with
      | some v1, some v2 =>
        if v1 * 16 + v2 < 128 then
          (percentDecode rest').map (fun l => Char.ofNat (v1 * 16 + v2) :: l)
        else none
      | _, _ => none
    | _ => none
  | c :: rest => (percentDecode rest).map (fun l => c :: l)

/-! ### Base64 (standard and URL-safe alphabets)

The signed-token codec lives in `services/signed-url-service` (not part
of the source tree); per the specification it base64url-encodes a JSON
payload and a signature and joins them with `'.'`.  The client-side
decoder in `file-url-converter.ts` maps `'-' → '+'`, `'_' → '/'` and
applies `atob`. -/

/-- The base64url alphabet, in value order. -/
def alphaB64url : List Char :=
  strL "ABCDEFGHIJKLMNOPQRSTUVWXYZabcdefghijklmnopqrstuvwxyz0123456789-_"

/-- Character for a 6-bit value in the base64url alphabet. -/
def b64Char (n : Nat) : Char :=
  alphaB64url.getD n 'A'

/-- Base64url encoding (no padding) of a byte sequence. -/
def base64urlEncode : List Nat → List Char
  | [] => []
  | [b1] => [b64Char (b1 / 4), b64Char (b1 % 4 * 16)]
  | [b1, b2] => [b64Char (b1 / 4), b64Char (b1 % 4 * 16 + b2 / 16), b64Char (b2 % 16 * 4)]
  | b1 :: b2 :: b3 :: rest =>
    b64Char (b1 / 4) :: b64Char (b1 % 4 * 16 + b2 / 16) ::
      b64Char (b2 % 16 * 4 + b3 / 64) :: b64Char (b3 % 64) :: base64urlEncode rest

/-- The character replacement performed by `extractFileMetadataFromUrl`
before calling `atob`: the global replacement of `'-'` by `'+'` and of
`'_'` by `'/'`. -/
def repChar (c : Char) : Char :=
  if c = '-' then '+' else if c = '_' then '/' else c

/-- Value of a character in the standard base64 alphabet used by `atob`. -/
def charValStd (c : Char) : Option Nat :=
  if 'A' ≤ c ∧ c ≤ 'Z' then some (c.toNat - 65)
  else if 'a' ≤ c ∧ c ≤ 'z' then some (c.toNat - 97 + 26)
  else if '0' ≤ c ∧ c ≤ '9' then some (c.toNat - 48 + 52)
  else if c = '+' then some 62
  else if c = '/' then some 63
  else none

/-- Map every character to its standard-base64 value; `none` on the
first invalid character (models `atob` rejecting its input). -/
def decChars : List Char → Option (List Nat)
  | [] => some []
  | c :: cs =>
    match charValStd c with
    | none => none
    | some v => (decChars cs).map (fun l => v :: l)

/-- Regroup 6-bit values into bytes; a trailing group of one value is
invalid, matching `atob` on inputs of length `1 mod 4`. -/
def regroupB64 : List Nat → Option (List Nat)
  | [] => some []
  | [_] => none
  | [c1, c2] => some [c1 * 4 + c2 / 16]
  | [c1, c2, c3] => some [c1 * 4 + c2 / 16, c2 % 16 * 16 + c3 / 4]
  | c1 :: c2 :: c3 :: c4 :: rest =>
    (regroupB64 rest).map
      (fun bs => (c1 * 4 + c2 / 16) :: (c2 % 16 * 16 + c3 / 4) :: (c3 % 4 * 64 + c4) :: bs)

/-- Model of `atob` (unpadded input): byte sequence of a standard-base64
string, `none` on invalid characters or an invalid length. -/
def atobStd (l : List Char) : Option (List Nat) :=
  (decChars l).bind regroupB64

/-- Bytes of an ASCII string, as produced by the server-side UTF-8
encoding of the payload (all payloads handled here are ASCII). -/
def strBytes (l : List Char) : List Nat :=
  l.map Char.toNat

/-- Characters of a byte sequence, as produced by `atob` returning a
binary string (one character per byte). -/
def bytesChars (bs : List Nat) : List Char :=
  bs.map Char.ofNat

/-! ### Flat JSON model

Model of `JSON.parse` restricted to flat objects whose values are
unescaped strings or non-negative integer literals (no whitespace) —
the shape of every token payload produced by the signed-URL service.
Inputs outside this fragment yield `none`, which the source maps to
`null` via its `try`/`catch`. -/

/-- JSON value of the flat fragment: a string or a number. -/
inductive Jval where
  | str (s : List Char)
  | num (n : Nat)
deriving DecidableEq, Repr

/-- Consume characters up to the next `'"'`; `none` when the quote is
missing.  Escape sequences are outside the modelled fragment. -/
def takeStr : List Char → Option (List Char × List Char)
  | [] => none
  | c :: cs =>
    if c = '"' then some ([], cs)
    else (takeStr cs).map (fun p => (c :: p.1, p.2))

/-- Decimal digit test. -/
def isDigitCh (c : Char) : Bool :=
  48 ≤ c.toNat && c.toNat ≤ 57

/-- Longest digit run at the head of the list, plus the remainder. -/
def spanDigits : List Char → List Char × List Char
  | [] => ([], [])
  | c :: cs =>
    if isDigitCh c then
      let p := spanDigits cs
      (c :: p.1, p.2)
    else ([], c :: cs)

/-- Numeric value of a digit run. -/
def digitsToNat (l : List Char) : Nat :=
  l.foldl (fun acc c => acc * 10 + (c.toNat - 48)) 0

/-- Parse one JSON value of the flat fragment. -/
def parseVal (l : List Char) : Option (Jval × List Char) :=
  match l with
  | [] => none
  | c :: rest =>
    if c = '"' then (takeStr rest).map (fun p => (Jval.str p.1, p.2))
    else
      let p := spanDigits (c :: rest)
      if p.1 = [] then none else some (Jval.num (digitsToNat p.1), p.2)

/-- Parse the members of a JSON object after the opening brace; the
fuel is an upper bound on the number of members. -/
def parsePairs : Nat → List Char → Option (List (List Char × Jval) × List Char)
  | 0, _ => none
  | fuel + 1, l =>
    match l with
    | [] => none
    | c :: rest =>
      if c = '"' then
        match takeStr rest with
        | none => none
        | some (key, r1) =>
          match r1 with
          | [] => none
          | c2 :: r2 =>
            if c2 = ':' then
              match parseVal r2 with
              | none => none
              | some (v, r3) =>
                match r3 with
                | [] => none
                | c3 :: r4 =>
                  if c3 = ',' then
                    (parsePairs fuel r4).map (fun p => ((key, v) :: p.1, p.2))
                  else if c3 = '\x7d' then some ([(key, v)], r4)
                  else none
            else none
      else none

/-- Model of `JSON.parse` on the flat fragment: an association list of
members on success, `none` on anything the fragment cannot represent. -/
def jsonParseFlat (l : List Char) : Option (List (List Char × Jval)) :=
  match l with
  | [] => none
  | c :: rest =>
    if c = '\x7b' then
      if rest = ['\x7d'] then some []
      else
        match parsePairs l.length rest with
        | some (ps, []) => some ps
        | _ => none
    else none

/-- Property lookup on a parsed object: models `payload.key`, with
`none` for `undefined` (the payloads at hand have distinct keys). -/
def jlookup (k : List Char) : List (List Char × Jval) → Option Jval
  | [] => none
  | (k', v) :: rest => if k' = k then some v else jlookup k rest

/-! ### file-url-converter.ts -/

/-- Grant metadata extracted from a URL.  The TypeScript return type
declares four strings, but at runtime each field is whatever property
access on the parsed payload yields — possibly `undefined` (`none`)
and possibly a non-string JSON value; the legacy branch always yields
strings. -/
structure ExtractedMeta where
  filename : Option Jval
  scope : Option Jval
  ownerId : Option Jval
  tenantId : Option Jval
deriving DecidableEq, Repr

/-- `isOldTokenUrl` from `file-url-converter.ts`: a URL is in the old
JWT format iff it contains `?token=` or `&token=` (an absent URL is
modelled by `none` and is not an old-token URL). -/
def isOldTokenUrl (url : Option (List Char)) : Bool :=
  match url with
  | none => false
  | some u => containsSeq (strL "?token=") u || containsSeq (strL "&token=") u

/-- The branch of `extractFileMetadataFromUrl` handling signed URLs
(`/files/secure/{token}`): `some r` models an executed `return r`,
`none` models falling through to the legacy branch. -/
def extractSecureBranch (urlNoQuery : List Char) : Option (Option ExtractedMeta) :=
  if containsSeq (strL "/files/secure/") urlNoQuery then
    let pathParts := splitOnCh '/' urlNoQuery
    match indexOfSeg (strL "secure") pathParts with
    | none => none
    | some i =>
      if i + 1 < pathParts.length then
        let token := joinSlash (pathParts.drop (i + 1))
        let payloadB64 := headD (splitOnCh '.' token) []
        if payloadB64 ≠ [] then
          match atobStd (payloadB64.map repChar) with
          | none => some none
          | some bytes =>
            match jsonParseFlat (bytesChars bytes) with
            | none => some none
            | some payload =>
              some (some
                { filename := jlookup (strL "filename") payload
                  scope := jlookup (strL "scope") payload
                  ownerId := jlookup (strL "ownerId") payload
                  tenantId := jlookup (strL "tenantId") payload })
        else none
      else none
  else none

/-- `extractFileMetadataFromUrl` from `file-url-converter.ts`: strips
the query string, first tries the signed-URL shape, then the legacy
shape `.../uploads/tenantId/scope/ownerId/filename` with the filename
percent-decoded; `none` models a `null` return. -/
def extractFileMetadataFromUrl (url : List Char) : Option ExtractedMeta :=
  let urlNoQuery := headD (splitOnCh '?' url) []
  match extractSecureBranch urlNoQuery with
  | some r => r
  | none =>
    let pathParts := splitOnCh '/' urlNoQuery
    match indexOfSeg (strL "uploads") pathParts with
    | none => none
    | some i =>
      if pathParts.length < i + 5 then none
      else
        match percentDecode (getPart pathParts (i + 4)) with
        | none => none
        | some fn =>
          some
            { filename := some (Jval.str fn)
              scope := some (Jval.str (getPart pathParts (i + 2)))
              ownerId := some (Jval.str (getPart pathParts (i + 3)))
              tenantId := some (Jval.str (getPart pathParts (i + 1))) }

/-- `convertToSignedUrl` from `file-url-converter.ts`, with its two
external collaborators as parameters: `gen` models
`generateSignedUrlOnce` (`none` models a thrown error, caught by the
source) and `serverUrl` models `CONFIG.serverUrl`.  An absent input is
`none`; the source returns `''` for it. -/
def convertToSignedUrl (gen : ExtractedMeta → Option (List Char))
    (serverUrl : List Char) (url : Option (List Char)) : List Char :=
  match url with
  | none => []
  | some u =>
    if u = [] then []
    else if ¬ isOldTokenUrl (some u) then u
    else
      match extractFileMetadataFromUrl u with
      | none => u
      | some md =>
        match gen md with
        | none => u
        | some signedUrl =>
          if leadsWith (strL "http") signedUrl then signedUrl
          else serverUrl ++ signedUrl

/-! ### Signed URL Service (spec-modelled)

The file `services/signed-url-service.ts` is referenced by the routes
and by `use-signed-url` but is not part of the source tree; the
definitions below are modelled from the specification. -/

/-- Grant fields of an issuance request. -/
structure GrantInput where
  tenantId : List Char
  scope : List Char
  ownerId : List Char
  filename : List Char
deriving DecidableEq, Repr

/-- Modelled from the spec: the canonical JSON serialization of an
access grant (`tenantId, scope, ownerId, filename, action, issuedAt,
expiresAt`), with no whitespace, used by the Token Codec of the
signed-url-service (missing from the source tree). -/
def jsonOfGrant (g : GrantInput) (action : List Char) (issuedAt expiresAt : Nat) : List Char :=
  strL "\x7b\"tenantId\":\"" ++ g.tenantId ++
  strL "\",\"scope\":\"" ++ g.scope ++
  strL "\",\"ownerId\":\"" ++ g.ownerId ++
  strL "\",\"filename\":\"" ++ g.filename ++
  strL "\",\"action\":\"" ++ action ++
  strL "\",\"issuedAt\":" ++ natChars issuedAt ++
  strL ",\"expiresAt\":" ++ natChars expiresAt ++
  strL "\x7d"

/-- Modelled from the spec: the Token Codec's `encode` — base64url of
the canonical payload, a `'.'`, and base64url of the signature computed
by the server-held MAC (abstracted as the parameter `mac`) over the
encoded payload. -/
def encodeToken (mac : List Nat → List Nat) (payload : List Char) : List Char :=
  let payloadB64 := base64urlEncode (strBytes payload)
  payloadB64 ++ '.' :: base64urlEncode (mac (strBytes payloadB64))

/-- Modelled from the spec: `SignedUrlService.generateSignedUrl` (the
service file is missing from the source tree) — computes
`expiresAt = issuedAt + expiresInMinutes * 60000` and returns the
relative URL `/files/secure/{token}` plus the numeric expiry. -/
def generateSignedUrl (mac : List Nat → List Nat) (now : Nat) (g : GrantInput)
    (action : List Char) (expiresInMinutes : Nat) : List Char × Nat :=
  let expiresAt := now + expiresInMinutes * 60000
  let token := encodeToken mac (jsonOfGrant g action now expiresAt)
  (strL "/files/secure/" ++ token, expiresAt)

/-- Modelled from the spec: `generateSignedUrlOnce` from
`hooks/use-signed-url` (missing from the source tree) — requests
issuance for the extracted metadata and returns the issued relative
URL; `none` models any issuance failure (rejected request, network
error), which `convertToSignedUrl` catches.  `issue` abstracts the
round trip to the issuance endpoint: `none` for failure, otherwise the
grant the server issued for and the timing/MAC state it used. -/
def generateSignedUrlOnce
    (issue : ExtractedMeta → Option (GrantInput × (List Nat → List Nat) × Nat × Nat))
    (md : ExtractedMeta) : Option (List Char) :=
  (issue md).map (fun r => (generateSignedUrl r.2.1 r.2.2.1 r.1 (strL "view") r.2.2.2).1)

/-! ### File Serving Gateway routes

`secureFilesRoutes` and `uploadsRoutes` from the source (registered
under `/api/v1/files` and `/api/v1/uploads`). -/

/-- Result of `SignedUrlService.verifySignedUrl`, as consumed by the
secure serving route: a `valid` flag, an `expired` flag, and the
verified grant fields (absent on failure). -/
structure VerificationResult where
  valid : Bool
  expired : Bool
  tenantId : Option (List Char)
  scope : Option (List Char)
  ownerId : Option (List Char)
  filename : Option (List Char)
  action : Option (List Char)
deriving DecidableEq, Repr

/-- Response of the secure serving route `GET /files/secure/*`:
an error status, or a streamed file (with its attachment flag from the
`Content-Disposition` decision). -/
inductive SecureResp where
  | expired410
  | forbidden403
  | notFound404
  | streamed (attachment : Bool)
deriving DecidableEq, Repr

/-- Whether a response streams file bytes. -/
def SecureResp.streams : SecureResp → Bool
  | SecureResp.streamed _ => true
  | _ => false

/-- The secure serving handler `GET /files/secure/*` from
`secureFilesRoutes`: verifies the token via the signed-URL service
(`verify` abstracts `SignedUrlService.verifySignedUrl`), maps
`valid:false, expired:true` to 410, other invalid tokens to 403,
resolves the storage path from the verified fields, returns 404 when
the file is absent (`fileExists` abstracts `fs.access` on the joined
path), and otherwise streams with the attachment disposition iff the
verified action is `download`. -/
def secureServe (verify : List Char → VerificationResult)
    (fileExists : List (List Char) → Bool) (token : List Char) : SecureResp :=
  let v := verify token
  if ¬ v.valid then
    if v.expired then SecureResp.expired410 else SecureResp.forbidden403
  else
    let fPath := [v.tenantId.getD [], v.scope.getD [], v.ownerId.getD [], v.filename.getD []]
    if ¬ fileExists fPath then SecureResp.notFound404
    else SecureResp.streamed (v.action = some (strL "download"))

/-- JavaScript falsiness of an optional string field of a request body:
absent (`undefined`) or the empty string. -/
def falsy (o : Option (List Char)) : Bool :=
  o = none ∨ o = some []

/-- Body of `POST /files/signed-url` (fields the handler reads;
`fileId` is read but never used). -/
structure IssueBody where
  tenantId : Option (List Char)
  scope : Option (List Char)
  ownerId : Option (List Char)
  filename : Option (List Char)
deriving DecidableEq, Repr

/-- Outcome of `POST /files/signed-url`: the HTTP error responses, or a
successful issuance carrying the grant passed to
`SignedUrlService.generateSignedUrl` (which is invoked exactly in the
`issued` case). -/
inductive IssueOutcome where
  | badRequest400
  | forbidden403
  | notFound404
  | issued (g : GrantInput)
deriving DecidableEq, Repr

/-- The issuance handler `POST /files/signed-url` from
`secureFilesRoutes`: 400 when `filename`, `scope` or `ownerId` is
falsy; the file tenant is the body's `tenantId` when truthy, else the
caller's tenant; 403 when the caller's tenant differs from the file
tenant; 404 when the file is absent; otherwise the signed URL is
issued.  `fileExists` abstracts `fs.access` on the joined
`uploads/tenant/scope/owner/filename` path. -/
def postSignedUrl (userTenant : List Char) (fileExists : List (List Char) → Bool)
    (b : IssueBody) : IssueOutcome :=
  if falsy b.filename ∨ falsy b.scope ∨ falsy b.ownerId then IssueOutcome.badRequest400
  else
    let fileTenantId := if falsy b.tenantId then userTenant else b.tenantId.getD []
    if userTenant ≠ fileTenantId then IssueOutcome.forbidden403
    else if ¬ fileExists [fileTenantId, b.scope.getD [], b.ownerId.getD [], b.filename.getD []] then
      IssueOutcome.notFound404
    else
      IssueOutcome.issued
        { tenantId := fileTenantId
          scope := b.scope.getD []
          ownerId := b.ownerId.getD []
          filename := b.filename.getD [] }

/-- One entry of the `files` array of `POST /files/signed-urls/batch`. -/
structure BatchFile where
  tenantId : Option (List Char)
  scope : Option (List Char)
  ownerId : Option (List Char)
  filename : Option (List Char)
deriving DecidableEq, Repr

/-- Outcome of `POST /files/signed-urls/batch`: 400 for a missing or
empty `files` array, 403 when some file's tenant mismatches the
caller, else issuance for every file (`SignedUrlService.generateSignedUrl`
is invoked exactly for the grants listed in `issuedAll`). -/
inductive BatchOutcome where
  | badRequest400
  | forbidden403
  | issuedAll (gs : List GrantInput)
deriving DecidableEq, Repr

/-- The effective tenant of a batch entry: its own when truthy, else
the caller's (`String(file.tenantId || user.tenantId)`). -/
def batchFileTenant (userTenant : List Char) (f : BatchFile) : List Char :=
  if falsy f.tenantId then userTenant else f.tenantId.getD []

/-- The batch issuance handler `POST /files/signed-urls/batch` from
`secureFilesRoutes` (`none` models a body whose `files` is absent or
not an array). -/
def postSignedUrlBatch (userTenant : List Char) (files : Option (List BatchFile)) :
    BatchOutcome :=
  match files with
  | none => BatchOutcome.badRequest400
  | some fs =>
    if fs.length = 0 then BatchOutcome.badRequest400
    else if (fs.filter (fun f => batchFileTenant userTenant f ≠ userTenant)).length ≠ 0 then
      BatchOutcome.forbidden403
    else
      BatchOutcome.issuedAll
        (fs.map (fun f =>
          { tenantId := batchFileTenant userTenant f
            scope := f.scope.getD []
            ownerId := f.ownerId.getD []
            filename := f.filename.getD [] }))

/-- Outcome of the legacy serving route
`GET /uploads/:tenantId/:scope/:ownerId/:filename`. -/
inductive LegacyOutcome where
  | tenantMismatch403
  | notFound404
  | streamFile
deriving DecidableEq, Repr

/-- The legacy serving handler from `uploadsRoutes`: `user` is the
caller identity established before the handler runs (absent without
authentication), `queryToken` the optional `?token=` bearer token, and
`verifyJwt` abstracts `fastify.jwt.verify` plus the tenant resolution
via `User.findById` — `none` models any thrown verification error
(caught by the source, which then proceeds without authentication).
A verified tenant differing from the path's tenant is rejected with
403; otherwise the handler checks existence of the path-derived file
and streams it. -/
def legacyServe (verifyJwt : List Char → Option (List Char)) (user : Option (List Char))
    (pathTenant : List Char) (queryToken : Option (List Char)) (fileExists : Bool) :
    LegacyOutcome :=
  let serveStep : LegacyOutcome :=
    if fileExists then LegacyOutcome.streamFile else LegacyOutcome.notFound404
  match user with
  | some t => if t ≠ pathTenant then LegacyOutcome.tenantMismatch403 else serveStep
  | none =>
    match queryToken with
    | none => serveStep
    | some tok =>
      match verifyJwt tok with
      | none => serveStep
      | some t => if t ≠ pathTenant then LegacyOutcome.tenantMismatch403 else serveStep

/-! ### Lemmas: substring search -/

theorem leadsWith_iff {m l : List Char} : leadsWith m l = true ↔ ∃ r, l = m ++ r := by
  induction m generalizing l with
  | nil => simp [leadsWith]
  | cons a as ih =>
    cases l with
    | nil => simp [leadsWith]
    | cons b bs =>
      simp only [leadsWith, Bool.and_eq_true, beq_iff_eq, ih, List.cons_append,
        List.cons.injEq]
      constructor
      · rintro ⟨rfl, r, rfl⟩; exact ⟨r, rfl, rfl⟩
      · rintro ⟨r, rfl, rfl⟩; exact ⟨rfl, r, rfl⟩

theorem leadsWith_self_append (m r : List Char) : leadsWith m (m ++ r) = true :=
  leadsWith_iff.mpr ⟨r, rfl⟩

theorem containsSeq_iff {m l : List Char} :
    containsSeq m l = true ↔ ∃ p q, l = p ++ m ++ q := by
  induction l with
  | nil =>
    simp only [containsSeq, leadsWith_iff]
    constructor
    · rintro ⟨r, h⟩
      rcases List.append_eq_nil.mp h.symm with ⟨rfl, rfl⟩
      exact ⟨[], [], rfl⟩
    · rintro ⟨p, q, h⟩
      rcases List.append_eq_nil.mp h.symm with ⟨h1, rfl⟩
      rcases List.append_eq_nil.mp h1 with ⟨rfl, rfl⟩
      exact ⟨[], rfl⟩
  | cons x t ih =>
    simp only [containsSeq, Bool.or_eq_true, leadsWith_iff, ih]
    constructor
    · rintro (⟨r, h⟩ | ⟨p, q, h⟩)
      · exact ⟨[], r, by simpa using h⟩
      · exact ⟨x :: p, q, by simp [h]⟩
    · rintro ⟨p, q, h⟩
      cases p with
      | nil => exact Or.inl ⟨q, by simpa using h⟩
      | cons y p' =>
        rcases (List.cons.injEq _ _ _ _).mp h with ⟨rfl, h2⟩
        exact Or.inr ⟨p', q, h2⟩

theorem containsSeq_false_of_not_mem {m l : List Char} {c : Char}
    (hc : c ∈ m) (hl : c ∉ l) : containsSeq m l = false := by
  by_contra h
  rcases containsSeq_iff.mp (by simpa using h) with ⟨p, q, rfl⟩
  exact hl (by simp [hc])

theorem containsSeq_of_leadsWith {m l : List Char} (h : leadsWith m l = true) :
    containsSeq m l = true := by
  rcases leadsWith_iff.mp h with ⟨r, rfl⟩
  exact containsSeq_iff.mpr ⟨[], r, rfl⟩

theorem containsSeq_append_cases {m a b : List Char}
    (h : containsSeq m (a ++ b) = true) :
    containsSeq m a = true ∨ containsSeq m b = true ∨
      ∃ x y, m = x ++ y ∧ x ≠ [] ∧ y ≠ [] ∧ (∃ p, a = p ++ x) ∧ ∃ q, b = y ++ q := by
  rcases containsSeq_iff.mp h with ⟨p, q, hpq⟩
  rcases List.append_eq_append_iff.mp hpq with ⟨w, hw1, hw2⟩ | ⟨w, hw1, hw2⟩
  · -- p ++ m = a ++ w, b = w ++ q
    rcases List.append_eq_append_iff.mp hw1 with ⟨v, hv1, hv2⟩ | ⟨v, hv1, hv2⟩
    · -- a = p ++ v, m = v ++ w
      cases hv4 : v with
      | nil =>
        subst hv4
        refine Or.inr (Or.inl ?_)
        simp only [List.nil_append] at hv2
        exact containsSeq_iff.mpr ⟨[], q, by simp [hw2, hv2]⟩
      | cons vh vt =>
        cases hw4 : w with
        | nil =>
          subst hw4
          refine Or.inl ?_
          simp only [List.append_nil] at hv2
          exact containsSeq_iff.mpr ⟨p, [], by simp [hv1, hv2]⟩
        | cons wh wt =>
          refine Or.inr (Or.inr ⟨v, w, hv2, by simp [hv4], by simp [hw4],
            ⟨p, hv1⟩, ⟨q, hw2⟩⟩)
    · -- p = a ++ v, w = v ++ m
      refine Or.inr (Or.inl ?_)
      exact containsSeq_iff.mpr ⟨v, q, by rw [hw2, hv2, List.append_assoc]⟩
  · -- a = (p ++ m) ++ w
    refine Or.inl ?_
    exact containsSeq_iff.mpr ⟨p, w, by rw [hw1, List.append_assoc]⟩

/-! ### Lemmas: splitting and indexing -/

theorem splitOnCh_ne_nil (c : Char) (l : List Char) : splitOnCh c l ≠ [] := by
  cases l with
  | nil => simp [splitOnCh]
  | cons x xs =>
    simp only [splitOnCh]
    by_cases h : x = c
    · simp [h]
    · simp only [if_neg h]
      cases splitOnCh c xs <;> simp

theorem splitOnCh_no_sep {c : Char} {l : List Char} (h : c ∉ l) :
    splitOnCh c l = [l] := by
  induction l with
  | nil => rfl
  | cons x xs ih =>
    simp only [List.mem_cons, not_or] at h
    simp [splitOnCh, ih h.2, Ne.symm h.1]

theorem splitOnCh_append_sep (c : Char) (a b : List Char) :
    splitOnCh c (a ++ c :: b) = splitOnCh c a ++ splitOnCh c b := by
  induction a with
  | nil => simp [splitOnCh]
  | cons x a' ih =>
    by_cases h : x = c
    · subst h
      simp [splitOnCh, ih]
    · rcases h2 : splitOnCh c a' with _ | ⟨hd, tl⟩
      · exact absurd h2 (splitOnCh_ne_nil c a')
      · simp [splitOnCh, h, ih, h2]

theorem headD_append_of_ne_nil {α : Type} {l1 : List α} (l2 : List α) (d : α)
    (h : l1 ≠ []) : headD (l1 ++ l2) d = headD l1 d := by
  cases l1 with
  | nil => exact absurd rfl h
  | cons x t => rfl

theorem indexOfSeg_append_self {x : List Char} {l1 : List (List Char)}
    (h : x ∉ l1) (l2 : List (List Char)) :
    indexOfSeg x (l1 ++ x :: l2) = some l1.length := by
  induction l1 with
  | nil => simp [indexOfSeg]
  | cons y t ih =>
    simp only [List.mem_cons, not_or] at h
    simp [indexOfSeg, Ne.symm h.1, ih h.2]

theorem getPart_append {l1 l2 : List (List Char)} (k : Nat) :
    getPart (l1 ++ l2) (l1.length + k) = getPart l2 k := by
  induction l1 with
  | nil => simp [getPart]
  | cons y t ih =>
    have h : (y :: t).length + k = t.length + k + 1 := by simp; omega
    rw [h]
    simpa [getPart, List.getD_cons_succ] using ih

theorem joinSlash_single (x : List Char) : joinSlash [x] = x := rfl

/-! ### Lemmas: base64 round trip -/

theorem b64Char_mem (n : Nat) : b64Char n ∈ alphaB64url := by
  unfold b64Char
  by_cases h : n < alphaB64url.length
  · rw [List.getD_eq_getElem alphaB64url 'A' h]
    exact List.getElem_mem h
  · rw [List.getD_eq_default _ _ (by omega)]
    decide

theorem mem_base64urlEncode {c : Char} {bs : List Nat}
    (h : c ∈ base64urlEncode bs) : c ∈ alphaB64url := by
  induction bs using base64urlEncode.induct with
  | case1 => simp [base64urlEncode] at h
  | case2 b1 =>
    simp only [base64urlEncode, List.mem_cons, List.not_mem_nil, or_false] at h
    rcases h with rfl | rfl <;> exact b64Char_mem _
  | case3 b1 b2 =>
    simp only [base64urlEncode, List.mem_cons, List.not_mem_nil, or_false] at h
    rcases h with rfl | rfl | rfl <;> exact b64Char_mem _
  | case4 b1 b2 b3 rest ih =>
    simp only [base64urlEncode, List.mem_cons] at h
    rcases h with rfl | rfl | rfl | rfl | h
    · exact b64Char_mem _
    · exact b64Char_mem _
    · exact b64Char_mem _
    · exact b64Char_mem _
    · exact ih h

theorem base64urlEncode_ne_nil {bs : List Nat} (h : bs ≠ []) :
    base64urlEncode bs ≠ [] := by
  match bs with
  | [] => exact absurd rfl h
  | [b1] => simp [base64urlEncode]
  | [b1, b2] => simp [base64urlEncode]
  | b1 :: b2 :: b3 :: rest => simp [base64urlEncode]

theorem charValStd_repChar_b64Char : ∀ v : Nat, v < 64 →
    charValStd (repChar (b64Char v)) = some v := by decide

theorem decChars_append {a b : List Char} {va vb : List Nat}
    (ha : decChars a = some va) (hb : decChars b = some vb) :
    decChars (a ++ b) = some (va ++ vb) := by
  induction a generalizing va with
  | nil =>
    simp only [decChars] at ha
    cases ha
    simpa using hb
  | cons c cs ih =>
    simp only [decChars] at ha ⊢
    rcases h1 : charValStd c with _ | v
    · rw [h1] at ha; exact absurd ha (by simp)
    · rw [h1] at ha
      rcases h2 : decChars cs with _ | vs
      · rw [h2] at ha; exact absurd ha (by simp)
      · rw [h2] at ha
        simp only [Option.map_some'] at ha
        cases ha
        simp [List.cons_append, ih h2, h1]

theorem atobStd_decode_encode : ∀ (bs : List Nat), (∀ b ∈ bs, b < 256) →
    atobStd ((base64urlEncode bs).map repChar) = some bs := by
  intro bs
  induction bs using base64urlEncode.induct with
  | case1 => intro _; rfl
  | case2 b1 =>
    intro h
    have hb1 := h b1 (by simp)
    have h1 : b1 / 4 < 64 := by omega
    have h2 : b1 % 4 * 16 < 64 := by omega
    simp only [base64urlEncode, List.map_cons, List.map_nil, atobStd, decChars,
      charValStd_repChar_b64Char _ h1, charValStd_repChar_b64Char _ h2]
    simp only [Option.map_some', Option.some_bind, regroupB64]
    congr 2
    omega
  | case3 b1 b2 =>
    intro h
    have hb1 := h b1 (by simp)
    have hb2 := h b2 (by simp)
    have h1 : b1 / 4 < 64 := by omega
    have h2 : b1 % 4 * 16 + b2 / 16 < 64 := by omega
    have h3 : b2 % 16 * 4 < 64 := by omega
    simp only [base64urlEncode, List.map_cons, List.map_nil, atobStd, decChars,
      charValStd_repChar_b64Char _ h1, charValStd_repChar_b64Char _ h2,
      charValStd_repChar_b64Char _ h3]
    simp only [Option.map_some', Option.some_bind, regroupB64]
    congr 2
    · omega
    · congr 1; omega
  | case4 b1 b2 b3 rest ih =>
    intro h
    have hb1 := h b1 (by simp)
    have hb2 := h b2 (by simp)
    have hb3 := h b3 (by simp)
    have hrest : ∀ b ∈ rest, b < 256 := fun b hb => h b (by simp [hb])
    have h1 : b1 / 4 < 64 := by omega
    have h2 : b1 % 4 * 16 + b2 / 16 < 64 := by omega
    have h3 : b2 % 16 * 4 + b3 / 64 < 64 := by omega
    have h4 : b3 % 64 < 64 := by omega
    have ih2 := ih hrest
    simp only [atobStd] at ih2
    rcases hdec : decChars ((base64urlEncode rest).map repChar) with _ | vs
    · rw [hdec] at ih2; exact absurd ih2 (by simp)
    · rw [hdec] at ih2
      simp only [Option.some_bind] at ih2
      simp only [base64urlEncode, List.map_cons, atobStd, decChars,
        charValStd_repChar_b64Char _ h1, charValStd_repChar_b64Char _ h2,
        charValStd_repChar_b64Char _ h3, charValStd_repChar_b64Char _ h4, hdec]
      simp only [Option.map_some', Option.some_bind, regroupB64, ih2]
      simp only [Option.map_some', Option.some.injEq]
      refine List.cons_eq_cons.mpr ⟨by omega, ?_⟩
      refine List.cons_eq_cons.mpr ⟨by omega, ?_⟩
      refine List.cons_eq_cons.mpr ⟨by omega, rfl⟩

/-! ### Lemmas: JSON round trip -/

theorem natCharsAux_shape : ∀ (fuel n : Nat) (c : Char), c ∈ natCharsAux fuel n →
    ∃ k, k < 10 ∧ c = Char.ofNat (48 + k) := by
  intro fuel
  induction fuel with
  | zero => intro n c h; simp [natCharsAux] at h
  | succ f ih =>
    intro n c h
    simp only [natCharsAux] at h
    by_cases hn : n < 10
    · rw [if_pos hn] at h
      simp only [List.mem_singleton] at h
      exact ⟨n, hn, h⟩
    · rw [if_neg hn] at h
      rcases List.mem_append.mp h with h1 | h1
      · exact ih _ _ h1
      · simp only [List.mem_singleton] at h1
        exact ⟨n % 10, Nat.mod_lt _ (by omega), h1⟩

theorem natChars_digit {n : Nat} {c : Char} (h : c ∈ natChars n) :
    isDigitCh c = true ∧ c ≠ '"' ∧ c.toNat < 256 := by
  rcases natCharsAux_shape _ _ _ h with ⟨k, hk, rfl⟩
  clear h
  revert k
  decide

theorem natChars_ne_nil (n : Nat) : natChars n ≠ [] := by
  unfold natChars natCharsAux
  by_cases hn : n < 10
  · simp [hn]
  · simp [hn]

theorem takeStr_append {s : List Char} (r : List Char) (h : '"' ∉ s) :
    takeStr (s ++ '"' :: r) = some (s, r) := by
  induction s with
  | nil => simp [takeStr]
  | cons c cs ih =>
    simp only [List.mem_cons, not_or] at h
    simp [takeStr, Ne.symm h.1, ih h.2]

theorem spanDigits_append {ds r : List Char} (hds : ∀ c ∈ ds, isDigitCh c = true)
    (hr : isDigitCh (headD r '\x7d') = false) : spanDigits (ds ++ r) = (ds, r) := by
  induction ds with
  | nil =>
    cases r with
    | nil => rfl
    | cons c t =>
      simp only [headD] at hr
      simp [spanDigits, hr]
  | cons d ds' ih =>
    have hd := hds d (by simp)
    have hds' : ∀ c ∈ ds', isDigitCh c = true := fun c hc => hds c (by simp [hc])
    simp [spanDigits, hd, ih hds']

theorem parseVal_str {s : List Char} (r : List Char) (h : '"' ∉ s) :
    parseVal ('"' :: (s ++ '"' :: r)) = some (Jval.str s, r) := by
  simp [parseVal, takeStr_append r h]

theorem parseVal_num {ds : List Char} (r : List Char) (hne : ds ≠ [])
    (hds : ∀ c ∈ ds, isDigitCh c = true)
    (hr : isDigitCh (headD r '\x7d') = false) :
    parseVal (ds ++ r) = some (Jval.num (digitsToNat ds), r) := by
  have hspan := spanDigits_append hds hr
  cases ds with
  | nil => exact absurd rfl hne
  | cons d ds' =>
    have hd := hds d (by simp)
    have hdq : d ≠ '"' := by
      intro hdq
      rw [hdq] at hd
      exact absurd hd (by decide)
    simp only [List.cons_append] at hspan
    simp [parseVal, hdq, hspan]

theorem parsePairs_strfield (f : Nat) {key val : List Char} (rest : List Char)
    (hk : '"' ∉ key) (hv : '"' ∉ val) :
    parsePairs (f + 1) ('"' :: (key ++ '"' :: ':' :: '"' :: (val ++ '"' :: ',' :: rest))) =
      (parsePairs f rest).map (fun p => ((key, Jval.str val) :: p.1, p.2)) := by
  have htk : takeStr (key ++ '"' :: (':' :: '"' :: (val ++ '"' :: ',' :: rest))) =
      some (key, ':' :: '"' :: (val ++ '"' :: ',' :: rest)) := takeStr_append _ hk
  have hpv := parseVal_str (',' :: rest) hv
  simp [parsePairs, htk, hpv]

theorem parsePairs_strfield_last (f : Nat) {key val : List Char} (rest : List Char)
    (hk : '"' ∉ key) (hv : '"' ∉ val) :
    parsePairs (f + 1)
        ('"' :: (key ++ '"' :: ':' :: '"' :: (val ++ '"' :: '\x7d' :: rest))) =
      some ([(key, Jval.str val)], rest) := by
  have htk : takeStr (key ++ '"' :: (':' :: '"' :: (val ++ '"' :: '\x7d' :: rest))) =
      some (key, ':' :: '"' :: (val ++ '"' :: '\x7d' :: rest)) := takeStr_append _ hk
  have hpv := parseVal_str ('\x7d' :: rest) hv
  simp [parsePairs, htk, hpv]

theorem parsePairs_numfield (f : Nat) {key ds : List Char} (rest : List Char)
    (hk : '"' ∉ key) (hne : ds ≠ []) (hds : ∀ c ∈ ds, isDigitCh c = true) :
    parsePairs (f + 1) ('"' :: (key ++ '"' :: ':' :: (ds ++ ',' :: rest))) =
      (parsePairs f rest).map (fun p => ((key, Jval.num (digitsToNat ds)) :: p.1, p.2)) := by
  have htk : takeStr (key ++ '"' :: (':' :: (ds ++ ',' :: rest))) =
      some (key, ':' :: (ds ++ ',' :: rest)) := takeStr_append _ hk
  have hpv := parseVal_num (',' :: rest) hne hds (by simp only [headD]; decide)
  simp [parsePairs, htk, hpv]

theorem parsePairs_numfield_last (f : Nat) {key ds : List Char} (rest : List Char)
    (hk : '"' ∉ key) (hne : ds ≠ []) (hds : ∀ c ∈ ds, isDigitCh c = true) :
    parsePairs (f + 1) ('"' :: (key ++ '"' :: ':' :: (ds ++ '\x7d' :: rest))) =
      some ([(key, Jval.num (digitsToNat ds))], rest) := by
  have htk : takeStr (key ++ '"' :: (':' :: (ds ++ '\x7d' :: rest))) =
      some (key, ':' :: (ds ++ '\x7d' :: rest)) := takeStr_append _ hk
  have hpv := parseVal_num ('\x7d' :: rest) hne hds (by simp only [headD]; decide)
  simp [parsePairs, htk, hpv]

theorem parsePairs_mono : ∀ (f1 : Nat) {l : List Char}
    {r : List (List Char × Jval) × List Char} (f2 : Nat),
    parsePairs f1 l = some r → f1 ≤ f2 → parsePairs f2 l = some r := by
  intro f1
  induction f1 with
  | zero =>
    intro l r f2 h _
    simp [parsePairs] at h
  | succ f ih =>
    intro l r f2 h hle
    obtain ⟨f2', rfl⟩ : ∃ k, f2 = k + 1 := ⟨f2 - 1, by omega⟩
    cases l with
    | nil => simp [parsePairs] at h
    | cons c rest =>
      simp only [parsePairs] at h ⊢
      by_cases hc : c = '"'
      · simp only [if_pos hc] at h ⊢
        rcases htk : takeStr rest with _ | ⟨key, r1⟩
        · simp [htk] at h
        · simp only [htk] at h ⊢
          cases r1 with
          | nil => simp at h
          | cons c2 r2 =>
            by_cases hc2 : c2 = ':'
            · simp only [if_pos hc2] at h ⊢
              rcases hpv : parseVal r2 with _ | ⟨v, r3⟩
              · simp [hpv] at h
              · simp only [hpv] at h ⊢
                cases r3 with
                | nil => simp at h
                | cons c3 r4 =>
                  by_cases hc3 : c3 = ','
                  · simp only [if_pos hc3] at h ⊢
                    rcases hpp : parsePairs f r4 with _ | p
                    · simp [hpp] at h
                    · simp only [hpp, Option.map_some'] at h
                      simp only [ih f2' hpp (by omega), Option.map_some']
                      exact h
                  · simp only [if_neg hc3] at h ⊢
                    exact h
            · simp only [if_neg hc2] at h
              exact absurd h (by simp)
      · simp only [if_neg hc] at h
        exact absurd h (by simp)


theorem jsonParseFlat_cons_eval {rest : List Char} {ps : List (List Char × Jval)}
    (hne : rest ≠ ['\x7d'])
    (hp : parsePairs ('\x7b' :: rest).length rest = some (ps, [])) :
    jsonParseFlat ('\x7b' :: rest) = some ps := by
  simp only [jsonParseFlat, if_pos rfl, if_neg hne, hp]
  simp

theorem jsonParse_jsonOfGrant (g : GrantInput) (action : List Char) (ia ea : Nat)
    (ht : '"' ∉ g.tenantId) (hs : '"' ∉ g.scope) (ho : '"' ∉ g.ownerId)
    (hf : '"' ∉ g.filename) (ha : '"' ∉ action) :
    jsonParseFlat (jsonOfGrant g action ia ea) = some
      [(strL "tenantId", Jval.str g.tenantId), (strL "scope", Jval.str g.scope),
       (strL "ownerId", Jval.str g.ownerId), (strL "filename", Jval.str g.filename),
       (strL "action", Jval.str action),
       (strL "issuedAt", Jval.num (digitsToNat (natChars ia))),
       (strL "expiresAt", Jval.num (digitsToNat (natChars ea)))] := by
  have hD : jsonOfGrant g action ia ea = '\x7b' :: ('"' :: (strL "tenantId" ++ '"' :: ':' :: '"' :: (g.tenantId ++ '"' :: ',' :: '"' :: (strL "scope" ++ '"' :: ':' :: '"' :: (g.scope ++ '"' :: ',' :: '"' :: (strL "ownerId" ++ '"' :: ':' :: '"' :: (g.ownerId ++ '"' :: ',' :: '"' :: (strL "filename" ++ '"' :: ':' :: '"' :: (g.filename ++ '"' :: ',' :: '"' :: (strL "action" ++ '"' :: ':' :: '"' :: (action ++ '"' :: ',' :: '"' :: (strL "issuedAt" ++ '"' :: ':' :: (natChars ia ++ ',' :: '"' :: (strL "expiresAt" ++ '"' :: ':' :: (natChars ea ++ '\x7d' :: []))))))))))))))) := by
    simp [jsonOfGrant, strL, List.append_assoc]
  have hia_ne := natChars_ne_nil ia
  have hea_ne := natChars_ne_nil ea
  have hia_d : ∀ c ∈ natChars ia, isDigitCh c = true :=
    fun c hc => (natChars_digit hc).1
  have hea_d : ∀ c ∈ natChars ea, isDigitCh c = true :=
    fun c hc => (natChars_digit hc).1
  have h7 : parsePairs 7 ('"' :: (strL "tenantId" ++ '"' :: ':' :: '"' :: (g.tenantId ++ '"' :: ',' :: '"' :: (strL "scope" ++ '"' :: ':' :: '"' :: (g.scope ++ '"' :: ',' :: '"' :: (strL "ownerId" ++ '"' :: ':' :: '"' :: (g.ownerId ++ '"' :: ',' :: '"' :: (strL "filename" ++ '"' :: ':' :: '"' :: (g.filename ++ '"' :: ',' :: '"' :: (strL "action" ++ '"' :: ':' :: '"' :: (action ++ '"' :: ',' :: '"' :: (strL "issuedAt" ++ '"' :: ':' :: (natChars ia ++ ',' :: '"' :: (strL "expiresAt" ++ '"' :: ':' :: (natChars ea ++ '\x7d' :: []))))))))))))))) = some
      ([(strL "tenantId", Jval.str g.tenantId), (strL "scope", Jval.str g.scope),
       (strL "ownerId", Jval.str g.ownerId), (strL "filename", Jval.str g.filename),
       (strL "action", Jval.str action),
       (strL "issuedAt", Jval.num (digitsToNat (natChars ia))),
       (strL "expiresAt", Jval.num (digitsToNat (natChars ea)))], []) := by
    rw [parsePairs_strfield 6 _ (by decide) ht]
    rw [parsePairs_strfield 5 _ (by decide) hs]
    rw [parsePairs_strfield 4 _ (by decide) ho]
    rw [parsePairs_strfield 3 _ (by decide) hf]
    rw [parsePairs_strfield 2 _ (by decide) ha]
    rw [parsePairs_numfield 1 _ (by decide) hia_ne hia_d]
    rw [parsePairs_numfield_last 0 _ (by decide) hea_ne hea_d]
    rfl
  rw [hD]
  refine jsonParseFlat_cons_eval (by simp) ?_
  refine parsePairs_mono 7 _ h7 ?_
  simp [strL, List.length_append]

/-! ### Lemmas: extraction from a generated signed URL -/

theorem alpha_char_facts : ∀ c ∈ alphaB64url,
    c ≠ '?' ∧ c ≠ '&' ∧ c ≠ '.' ∧ c ≠ '/' := by decide

theorem extract_secure_generic (json sigTail : List Char)
    (pairs : List (List Char × Jval))
    (hparse : jsonParseFlat json = some pairs)
    (hascii : ∀ c ∈ json, c.toNat < 256)
    (hsq : '?' ∉ sigTail) (hss : '/' ∉ sigTail) :
    extractFileMetadataFromUrl
        (strL "/files/secure/" ++ (base64urlEncode (strBytes json) ++ '.' :: sigTail)) =
      some
        { filename := jlookup (strL "filename") pairs
          scope := jlookup (strL "scope") pairs
          ownerId := jlookup (strL "ownerId") pairs
          tenantId := jlookup (strL "tenantId") pairs } := by
  have hjne : json ≠ [] := by
    intro h
    rw [h] at hparse
    simp [jsonParseFlat] at hparse
  have hBmem : ∀ c ∈ base64urlEncode (strBytes json), c ∈ alphaB64url :=
    fun c hc => mem_base64urlEncode hc
  have hBq : '?' ∉ base64urlEncode (strBytes json) :=
    fun h => (alpha_char_facts _ (hBmem _ h)).1 rfl
  have hBdot : '.' ∉ base64urlEncode (strBytes json) :=
    fun h => (alpha_char_facts _ (hBmem _ h)).2.2.1 rfl
  have hBsl : '/' ∉ base64urlEncode (strBytes json) :=
    fun h => (alpha_char_facts _ (hBmem _ h)).2.2.2 rfl
  have hBne : base64urlEncode (strBytes json) ≠ [] :=
    base64urlEncode_ne_nil (by simpa [strBytes] using hjne)
  have hTq : '?' ∉ base64urlEncode (strBytes json) ++ '.' :: sigTail := by
    intro h
    rcases List.mem_append.mp h with h1 | h1
    · exact hBq h1
    · rcases List.mem_cons.mp h1 with h2 | h2
      · exact absurd h2 (by decide)
      · exact hsq h2
  have hTsl : '/' ∉ base64urlEncode (strBytes json) ++ '.' :: sigTail := by
    intro h
    rcases List.mem_append.mp h with h1 | h1
    · exact hBsl h1
    · rcases List.mem_cons.mp h1 with h2 | h2
      · exact absurd h2 (by decide)
      · exact hss h2
  have hq : '?' ∉ strL "/files/secure/" ++ (base64urlEncode (strBytes json) ++ '.' :: sigTail) := by
    intro h
    rcases List.mem_append.mp h with h1 | h1
    · exact absurd h1 (by decide)
    · exact hTq h1
  have hnoquery : splitOnCh '?'
      (strL "/files/secure/" ++ (base64urlEncode (strBytes json) ++ '.' :: sigTail)) =
      [strL "/files/secure/" ++ (base64urlEncode (strBytes json) ++ '.' :: sigTail)] :=
    splitOnCh_no_sep hq
  have hcontains : containsSeq (strL "/files/secure/")
      (strL "/files/secure/" ++ (base64urlEncode (strBytes json) ++ '.' :: sigTail)) = true :=
    containsSeq_of_leadsWith (leadsWith_self_append _ _)
  have hsplitT : splitOnCh '/' (base64urlEncode (strBytes json) ++ '.' :: sigTail) =
      [base64urlEncode (strBytes json) ++ '.' :: sigTail] :=
    splitOnCh_no_sep hTsl
  have hsplit : splitOnCh '/'
      (strL "/files/secure/" ++ (base64urlEncode (strBytes json) ++ '.' :: sigTail)) =
      [[], strL "files", strL "secure",
        base64urlEncode (strBytes json) ++ '.' :: sigTail] := by
    have e1 : strL "/files/secure/" ++ (base64urlEncode (strBytes json) ++ '.' :: sigTail) =
        '/' :: (strL "files" ++ '/' :: (strL "secure" ++ '/' ::
          (base64urlEncode (strBytes json) ++ '.' :: sigTail))) := by
      simp [strL, List.append_assoc]
    rw [e1]
    have e2 : ∀ X : List Char, splitOnCh '/' ('/' :: X) = [] :: splitOnCh '/' X := by
      intro X
      simp [splitOnCh]
    rw [e2, splitOnCh_append_sep, splitOnCh_append_sep,
      splitOnCh_no_sep (show '/' ∉ strL "files" by decide),
      splitOnCh_no_sep (show '/' ∉ strL "secure" by decide), hsplitT]
    rfl
  have hidx : indexOfSeg (strL "secure")
      [[], strL "files", strL "secure", base64urlEncode (strBytes json) ++ '.' :: sigTail] =
      some 2 := by
    simp [indexOfSeg, show ([] : List Char) ≠ strL "secure" by decide,
      show strL "files" ≠ strL "secure" by decide]
  have hsplitdot : splitOnCh '.' (base64urlEncode (strBytes json) ++ '.' :: sigTail) =
      [base64urlEncode (strBytes json)] ++ splitOnCh '.' sigTail := by
    rw [splitOnCh_append_sep, splitOnCh_no_sep hBdot]
  have hdecode := atobStd_decode_encode (strBytes json)
    (by
      intro b hb
      simp only [strBytes, List.mem_map] at hb
      rcases hb with ⟨c, hc, rfl⟩
      exact hascii c hc)
  have hbc : bytesChars (strBytes json) = json := by
    simp [bytesChars, strBytes, List.map_map, Function.comp_def, Char.ofNat_toNat]
  have hbranch : extractSecureBranch
      (strL "/files/secure/" ++ (base64urlEncode (strBytes json) ++ '.' :: sigTail)) =
      some (some
        { filename := jlookup (strL "filename") pairs
          scope := jlookup (strL "scope") pairs
          ownerId := jlookup (strL "ownerId") pairs
          tenantId := jlookup (strL "tenantId") pairs }) := by
    simp only [extractSecureBranch, hcontains, if_true, hsplit, hidx,
      List.length_cons, List.length_nil, List.drop_succ_cons, List.drop_zero,
      joinSlash, hsplitdot, List.cons_append, List.nil_append, headD, ne_eq,
      hBne, not_false_eq_true, hdecode, hbc, hparse, if_true]
    norm_num
  simp only [extractFileMetadataFromUrl, hnoquery]
  rw [show headD [strL "/files/secure/" ++
    (base64urlEncode (strBytes json) ++ '.' :: sigTail)] [] =
    strL "/files/secure/" ++ (base64urlEncode (strBytes json) ++ '.' :: sigTail) from rfl]
  rw [hbranch]

/-! ### Lemmas: converted URLs are not legacy URLs -/

theorem containsSeq_slash_marker {m a s : List Char}
    (hma : containsSeq m a = false)
    (hc : ∃ c, c ∈ m ∧ c ∉ s)
    (hslash : '/' ∉ m)
    (hhead : ∃ s', s = '/' :: s') :
    containsSeq m (a ++ s) = false := by
  cases htrue : containsSeq m (a ++ s) with
  | false => rfl
  | true =>
    exfalso
    rcases containsSeq_append_cases htrue with h | h | ⟨x, y, hm, hx, hy, ⟨p, hp⟩, ⟨q, hq⟩⟩
    · rw [h] at hma; cases hma
    · rcases hc with ⟨c, hcm, hcs⟩
      rcases containsSeq_iff.mp h with ⟨p, q, rfl⟩
      exact hcs (by simp [hcm])
    · rcases hhead with ⟨s', hs'⟩
      cases y with
      | nil => exact hy rfl
      | cons c y' =>
        have hcm : c ∈ m := by rw [hm]; simp
        have hcsl : c = '/' := by
          rw [hs'] at hq
          exact (((List.cons.injEq _ _ _ _).mp hq).1).symm
        rw [hcsl] at hcm
        exact hslash hcm

theorem isOldTokenUrl_append_false {a s : List Char}
    (ha : isOldTokenUrl (some a) = false)
    (h1 : '?' ∉ s) (h2 : '&' ∉ s)
    (hhead : ∃ s', s = '/' :: s') :
    isOldTokenUrl (some (a ++ s)) = false := by
  simp only [isOldTokenUrl, Bool.or_eq_false_iff] at ha ⊢
  exact ⟨containsSeq_slash_marker ha.1 ⟨'?', by decide, h1⟩ (by decide) hhead,
    containsSeq_slash_marker ha.2 ⟨'&', by decide, h2⟩ (by decide) hhead⟩

theorem mem_encodeToken {c : Char} {mac : List Nat → List Nat} {payload : List Char}
    (h : c ∈ encodeToken mac payload) : c ∈ alphaB64url ∨ c = '.' := by
  simp only [encodeToken, List.mem_append, List.mem_cons] at h
  rcases h with h | h | h
  · exact Or.inl (mem_base64urlEncode h)
  · exact Or.inr h
  · exact Or.inl (mem_base64urlEncode h)

theorem generated_url_not_old {mac : List Nat → List Nat} {payload serverUrl : List Char}
    (hsrv : isOldTokenUrl (some serverUrl) = false) :
    isOldTokenUrl (some (serverUrl ++ (strL "/files/secure/" ++ encodeToken mac payload))) =
      false := by
  have hmem : ∀ c : Char, c ∈ strL "/files/secure/" ++ encodeToken mac payload →
      c ≠ '?' ∧ c ≠ '&' := by
    intro c hc
    rcases List.mem_append.mp hc with h | h
    · have hlit : ∀ x ∈ strL "/files/secure/", x ≠ '?' ∧ x ≠ '&' := by decide
      exact hlit c h
    · rcases mem_encodeToken h with h1 | rfl
      · exact ⟨(alpha_char_facts _ h1).1, (alpha_char_facts _ h1).2.1⟩
      · exact ⟨by decide, by decide⟩
  refine isOldTokenUrl_append_false hsrv ?_ ?_ ?_
  · intro h; exact (hmem _ h).1 rfl
  · intro h; exact (hmem _ h).2 rfl
  · exact ⟨strL "files/secure/" ++ encodeToken mac payload, by simp [strL]⟩

/-! ### Claims -/

/-- C10: for an undefined (`none`) or empty url input, `convertToSignedUrl`
returns the empty string, not the input value and not an error, whatever
the issuance backend and configured server URL are. -/
theorem c10_empty_input (gen : ExtractedMeta → Option (List Char)) (serverUrl : List Char) :
    convertToSignedUrl gen serverUrl none = [] ∧
    convertToSignedUrl gen serverUrl (some []) = [] := by
  constructor
  · rfl
  · simp [convertToSignedUrl]

/-- C5: `convertToSignedUrl` never raises: whenever metadata extraction
returns `null` the original URL is returned unchanged, and whenever
issuance fails (`gen` returns `none`, modelling a thrown and caught
error) the original URL is returned unchanged. -/
theorem c5_convert_never_raises (gen : ExtractedMeta → Option (List Char))
    (serverUrl u : List Char) :
    (extractFileMetadataFromUrl u = none →
      convertToSignedUrl gen serverUrl (some u) = u) ∧
    (∀ md, extractFileMetadataFromUrl u = some md → gen md = none →
      convertToSignedUrl gen serverUrl (some u) = u) := by
  constructor
  · intro hex
    by_cases hu : u = []
    · subst hu; simp [convertToSignedUrl]
    · by_cases hold : isOldTokenUrl (some u) = true
      · simp [convertToSignedUrl, hu, hold, hex]
      · simp [convertToSignedUrl, hu, hold]
  · intro md hex hgen
    by_cases hu : u = []
    · subst hu; simp [convertToSignedUrl]
    · by_cases hold : isOldTokenUrl (some u) = true
      · simp [convertToSignedUrl, hu, hold, hex, hgen]
      · simp [convertToSignedUrl, hu, hold]

/-- Witness for C5 at a concrete legacy URL whose issuance backend
always fails. -/
theorem c5_convert_never_raises_witness :
    convertToSignedUrl (fun _ => none) [] (some (strL "/uploads/a/b/c/d?token=x")) =
      strL "/uploads/a/b/c/d?token=x" :=
  (c5_convert_never_raises (fun _ => none) [] (strL "/uploads/a/b/c/d?token=x")).2
    { filename := some (Jval.str (strL "d"))
      scope := some (Jval.str (strL "b"))
      ownerId := some (Jval.str (strL "c"))
      tenantId := some (Jval.str (strL "a")) }
    (by decide) rfl

/-- C3: the secure serving endpoint maps an expired verification result
to 410, any other invalid result to 403, and a valid result whose file
is absent on disk to 404, streaming no file bytes in any of the three
cases. -/
theorem c3_secure_serve_statuses (verify : List Char → VerificationResult)
    (fileExists : List (List Char) → Bool) (token : List Char) :
    ((verify token).valid = false → (verify token).expired = true →
      secureServe verify fileExists token = SecureResp.expired410 ∧
      (secureServe verify fileExists token).streams = false) ∧
    ((verify token).valid = false → (verify token).expired = false →
      secureServe verify fileExists token = SecureResp.forbidden403 ∧
      (secureServe verify fileExists token).streams = false) ∧
    ((verify token).valid = true →
      fileExists [(verify token).tenantId.getD [], (verify token).scope.getD [],
        (verify token).ownerId.getD [], (verify token).filename.getD []] = false →
      secureServe verify fileExists token = SecureResp.notFound404 ∧
      (secureServe verify fileExists token).streams = false) := by
  refine ⟨?_, ?_, ?_⟩
  · intro h1 h2
    simp [secureServe, h1, h2, SecureResp.streams]
  · intro h1 h2
    simp [secureServe, h1, h2, SecureResp.streams]
  · intro h1 h2
    simp [secureServe, h1, h2, SecureResp.streams]

/-- Witness for C3 on a verifier reporting an expired token. -/
theorem c3_secure_serve_statuses_witness :
    secureServe (fun _ => ⟨false, true, none, none, none, none, none⟩)
      (fun _ => false) (strL "tok") = SecureResp.expired410 ∧
    (secureServe (fun _ => ⟨false, true, none, none, none, none, none⟩)
      (fun _ => false) (strL "tok")).streams = false :=
  (c3_secure_serve_statuses (fun _ => ⟨false, true, none, none, none, none, none⟩)
    (fun _ => false) (strL "tok")).1 rfl rfl

/-- C1: on the legacy serving endpoint, an unauthenticated request with
no bearer token query parameter, or whose token fails JWT verification,
is never rejected with a tenant mismatch — it proceeds to the
file-existence check (404 or stream); a 403 tenant mismatch is only
possible when the token verifies successfully and resolves to a tenant
differing from the path's tenant. -/
theorem c1_legacy_fallback_allow (verifyJwt : List Char → Option (List Char))
    (pathTenant : List Char) (queryToken : Option (List Char)) (fileExists : Bool) :
    (queryToken = none →
      legacyServe verifyJwt none pathTenant queryToken fileExists =
        (if fileExists then LegacyOutcome.streamFile else LegacyOutcome.notFound404) ∧
      legacyServe verifyJwt none pathTenant queryToken fileExists ≠
        LegacyOutcome.tenantMismatch403) ∧
    (∀ tok, queryToken = some tok → verifyJwt tok = none →
      legacyServe verifyJwt none pathTenant queryToken fileExists =
        (if fileExists then LegacyOutcome.streamFile else LegacyOutcome.notFound404) ∧
      legacyServe verifyJwt none pathTenant queryToken fileExists ≠
        LegacyOutcome.tenantMismatch403) ∧
    (legacyServe verifyJwt none pathTenant queryToken fileExists =
        LegacyOutcome.tenantMismatch403 →
      ∃ tok t, queryToken = some tok ∧ verifyJwt tok = some t ∧ t ≠ pathTenant) := by
  refine ⟨?_, ?_, ?_⟩
  · rintro rfl
    constructor
    · simp [legacyServe]
    · cases fileExists <;> simp [legacyServe]
  · rintro tok rfl hv
    constructor
    · simp [legacyServe, hv]
    · cases fileExists <;> simp [legacyServe, hv]
  · intro h
    rcases hq : queryToken with _ | tok
    · rw [hq] at h
      cases fileExists <;> simp [legacyServe] at h
    · rw [hq] at h
      rcases hv : verifyJwt tok with _ | t
      · rw [legacyServe, hv] at h
        cases fileExists <;> simp at h
      · by_cases ht : t = pathTenant
        · subst ht
          rw [legacyServe, hv] at h
          cases fileExists <;> simp at h
        · exact ⟨tok, t, rfl, hv, ht⟩

/-- Witness for C1 on an unauthenticated request with no query token. -/
theorem c1_legacy_fallback_allow_witness :
    legacyServe (fun _ => none) none (strL "t1") none true = LegacyOutcome.streamFile ∧
    legacyServe (fun _ => none) none (strL "t1") none true ≠
      LegacyOutcome.tenantMismatch403 := by
  have h := (c1_legacy_fallback_allow (fun _ => none) (strL "t1") none true).1 rfl
  exact ⟨by rw [h.1]; rfl, h.2⟩

/-- C2: `convertToSignedUrl` is idempotent — applying it to its own
result returns that result unchanged, for any input URL, provided only
that the configured server base URL is not itself a legacy token URL; a
successfully converted URL no longer satisfies the legacy-URL
predicate, so the second call is a no-op. -/
theorem c2_convert_idempotent
    (issue : ExtractedMeta → Option (GrantInput × (List Nat → List Nat) × Nat × Nat))
    (serverUrl : List Char) (url : Option (List Char))
    (hsrv : isOldTokenUrl (some serverUrl) = false) :
    convertToSignedUrl (generateSignedUrlOnce issue) serverUrl
        (some (convertToSignedUrl (generateSignedUrlOnce issue) serverUrl url)) =
      convertToSignedUrl (generateSignedUrlOnce issue) serverUrl url := by
  cases url with
  | none => simp [convertToSignedUrl]
  | some u =>
    by_cases hu : u = []
    · subst hu; simp [convertToSignedUrl]
    · by_cases hold : isOldTokenUrl (some u) = true
      · rcases hex : extractFileMetadataFromUrl u with _ | md
        · have hr : convertToSignedUrl (generateSignedUrlOnce issue) serverUrl (some u) = u := by
            simp [convertToSignedUrl, hu, hold, hex]
          rw [hr]
          exact hr
        · rcases hiss : issue md with _ | r
          · have hgen : generateSignedUrlOnce issue md = none := by
              simp [generateSignedUrlOnce, hiss]
            have hr : convertToSignedUrl (generateSignedUrlOnce issue) serverUrl (some u) = u := by
              simp [convertToSignedUrl, hu, hold, hex, hgen]
            rw [hr]
            exact hr
          · have hgen : generateSignedUrlOnce issue md = some (strL "/files/secure/" ++
                encodeToken r.2.1 (jsonOfGrant r.1 (strL "view") r.2.2.1
                  (r.2.2.1 + r.2.2.2 * 60000))) := by
              simp [generateSignedUrlOnce, hiss, generateSignedUrl]
            have hlead : leadsWith (strL "http") (strL "/files/secure/" ++
                encodeToken r.2.1 (jsonOfGrant r.1 (strL "view") r.2.2.1
                  (r.2.2.1 + r.2.2.2 * 60000))) = false := by
              simp [strL, leadsWith]
            have hr : convertToSignedUrl (generateSignedUrlOnce issue) serverUrl (some u) =
                serverUrl ++ (strL "/files/secure/" ++
                  encodeToken r.2.1 (jsonOfGrant r.1 (strL "view") r.2.2.1
                    (r.2.2.1 + r.2.2.2 * 60000))) := by
              simp [convertToSignedUrl, hu, hold, hex, hgen, hlead]
            rw [hr]
            have hnotold := @generated_url_not_old r.2.1
              (jsonOfGrant r.1 (strL "view") r.2.2.1
                (r.2.2.1 + r.2.2.2 * 60000)) serverUrl hsrv
            have hne : serverUrl ++ (strL "/files/secure/" ++
                encodeToken r.2.1 (jsonOfGrant r.1 (strL "view") r.2.2.1
                  (r.2.2.1 + r.2.2.2 * 60000))) ≠ [] := by
              simp [strL]
            simp [convertToSignedUrl, hne, hnotold]
      · have hr : convertToSignedUrl (generateSignedUrlOnce issue) serverUrl (some u) = u := by
          simp [convertToSignedUrl, hu, hold]
        rw [hr]
        exact hr

/-- Witness for C2 on a concrete legacy URL with a concrete issuance
backend and server base URL. -/
theorem c2_convert_idempotent_witness :
    convertToSignedUrl
        (generateSignedUrlOnce (fun _ =>
          some (⟨strL "t1", strL "tasks", strL "o1", strL "a.png"⟩,
            (fun _ => [1, 2, 3]), 0, 60)))
        (strL "http://localhost:3001")
        (some (convertToSignedUrl
          (generateSignedUrlOnce (fun _ =>
            some (⟨strL "t1", strL "tasks", strL "o1", strL "a.png"⟩,
              (fun _ => [1, 2, 3]), 0, 60)))
          (strL "http://localhost:3001")
          (some (strL "/uploads/t1/tasks/o1/a.png?token=xyz")))) =
      convertToSignedUrl
        (generateSignedUrlOnce (fun _ =>
          some (⟨strL "t1", strL "tasks", strL "o1", strL "a.png"⟩,
            (fun _ => [1, 2, 3]), 0, 60)))
        (strL "http://localhost:3001")
        (some (strL "/uploads/t1/tasks/o1/a.png?token=xyz")) :=
  c2_convert_idempotent
    (fun _ => some (⟨strL "t1", strL "tasks", strL "o1", strL "a.png"⟩,
      (fun _ => [1, 2, 3]), 0, 60))
    (strL "http://localhost:3001")
    (some (strL "/uploads/t1/tasks/o1/a.png?token=xyz"))
    (by decide)

/-- Counterexample to C4 as stated: a request whose body supplies a
mismatching tenant but omits `filename` is answered 400, not 403 — the
missing-field validation runs before the tenant check. -/
theorem c4_tenant_mismatch_cex :
    postSignedUrl (strL "B") (fun _ => true)
        { tenantId := some (strL "A"), scope := some (strL "s"),
          ownerId := some (strL "o"), filename := none } =
      IssueOutcome.badRequest400 ∧
    IssueOutcome.badRequest400 ≠ IssueOutcome.forbidden403 := by
  decide

/-- C4 (amended): a request supplying a tenantId different from the
caller's is answered 403 whenever the required fields `filename`,
`scope`, `ownerId` pass validation (requests failing it get 400
instead), and in every mismatch case no signed URL is issued; the
batch endpoint answers 403 and issues nothing whenever any file of the
request names a tenant differing from the caller's. -/
theorem c4_tenant_mismatch_amended (userTenant : List Char)
    (fileExists : List (List Char) → Bool) (b : IssueBody) (files : List BatchFile) :
    ((falsy b.filename = false ∧ falsy b.scope = false ∧ falsy b.ownerId = false) →
      falsy b.tenantId = false → b.tenantId.getD [] ≠ userTenant →
      postSignedUrl userTenant fileExists b = IssueOutcome.forbidden403) ∧
    (falsy b.tenantId = false → b.tenantId.getD [] ≠ userTenant →
      ∀ g, postSignedUrl userTenant fileExists b ≠ IssueOutcome.issued g) ∧
    ((∃ f ∈ files, falsy f.tenantId = false ∧ f.tenantId.getD [] ≠ userTenant) →
      postSignedUrlBatch userTenant (some files) = BatchOutcome.forbidden403 ∧
      ∀ gs, postSignedUrlBatch userTenant (some files) ≠ BatchOutcome.issuedAll gs) := by
  refine ⟨?_, ?_, ?_⟩
  · rintro ⟨hf, hs, ho⟩ htid hne
    have hmis : userTenant ≠ (if falsy b.tenantId then userTenant else b.tenantId.getD []) := by
      rw [if_neg (by simp [htid])]
      exact fun h => hne h.symm
    simp [postSignedUrl, hf, hs, ho, hmis]
  · intro htid hne g
    by_cases hbad : falsy b.filename = true ∨ falsy b.scope = true ∨ falsy b.ownerId = true
    · simp [postSignedUrl, hbad]
    · push_neg at hbad
      simp only [Bool.not_eq_true] at hbad
      have hmis : userTenant ≠ (if falsy b.tenantId then userTenant else b.tenantId.getD []) := by
        rw [if_neg (by simp [htid])]
        exact fun h => hne h.symm
      simp [postSignedUrl, hbad.1, hbad.2.1, hbad.2.2, hmis]
  · rintro ⟨f, hfmem, hft, hfne⟩
    have hP : batchFileTenant userTenant f ≠ userTenant := by
      simp only [batchFileTenant, hft, Bool.false_eq_true, if_false]
      exact hfne
    have hfin : f ∈ files.filter (fun f => batchFileTenant userTenant f ≠ userTenant) :=
      List.mem_filter.mpr ⟨hfmem, by simp [hP]⟩
    have hflt : (files.filter
        (fun f => batchFileTenant userTenant f ≠ userTenant)).length ≠ 0 := by
      intro h0
      rw [List.length_eq_zero] at h0
      rw [h0] at hfin
      exact absurd hfin (List.not_mem_nil _)
    have hlen : files.length ≠ 0 := by
      intro h0
      rw [List.length_eq_zero] at h0
      rw [h0] at hfmem
      exact absurd hfmem (List.not_mem_nil _)
    constructor
    · simp only [postSignedUrlBatch, if_neg hlen, if_pos hflt]
    · intro gs
      simp only [postSignedUrlBatch, if_neg hlen, if_pos hflt]
      simp

/-- Witness for C4 (amended) at a concrete mismatching request and a
concrete mismatching batch. -/
theorem c4_tenant_mismatch_amended_witness :
    postSignedUrl (strL "B") (fun _ => true)
        ⟨some (strL "A"), some (strL "s"), some (strL "o"), some (strL "f")⟩ =
      IssueOutcome.forbidden403 ∧
    postSignedUrlBatch (strL "B")
        (some [⟨some (strL "A"), some (strL "s"), some (strL "o"), some (strL "f")⟩]) =
      BatchOutcome.forbidden403 := by
  refine ⟨?_, ?_⟩
  · exact (c4_tenant_mismatch_amended (strL "B") (fun _ => true)
      ⟨some (strL "A"), some (strL "s"), some (strL "o"), some (strL "f")⟩ []).1
      ⟨by decide, by decide, by decide⟩ (by decide) (by decide)
  · exact ((c4_tenant_mismatch_amended (strL "B") (fun _ => true)
      ⟨some (strL "A"), some (strL "s"), some (strL "o"), some (strL "f")⟩
      [⟨some (strL "A"), some (strL "s"), some (strL "o"), some (strL "f")⟩]).2.2
      ⟨⟨some (strL "A"), some (strL "s"), some (strL "o"), some (strL "f")⟩,
        by decide, by decide, by decide⟩).1

/-- Counterexample to C8 as stated: a request with `tenantId` absent but
`filename`, `scope`, `ownerId` present is not answered 400 — the
handler does not validate `tenantId` and instead defaults it to the
caller's tenant, proceeding to issuance. -/
theorem c8_missing_fields_cex :
    postSignedUrl (strL "T") (fun _ => true)
        { tenantId := none, scope := some (strL "s"),
          ownerId := some (strL "o"), filename := some (strL "f") } =
      IssueOutcome.issued ⟨strL "T", strL "s", strL "o", strL "f"⟩ ∧
    IssueOutcome.issued ⟨strL "T", strL "s", strL "o", strL "f"⟩ ≠
      IssueOutcome.badRequest400 := by
  decide

/-- C8 (amended): the issuance endpoint answers 400 exactly when one of
`filename`, `scope`, `ownerId` is absent or empty (`tenantId` is not
validated; when absent or empty it defaults to the caller's tenant),
and on that error the outcome is independent of the caller's tenant and
of the file system — no tenant check, no file-existence check and no
issuance take place. -/
theorem c8_missing_fields_amended (userTenant : List Char)
    (fileExists : List (List Char) → Bool) (b : IssueBody) :
    (postSignedUrl userTenant fileExists b = IssueOutcome.badRequest400 ↔
      (falsy b.filename = true ∨ falsy b.scope = true ∨ falsy b.ownerId = true)) ∧
    ((falsy b.filename = true ∨ falsy b.scope = true ∨ falsy b.ownerId = true) →
      ∀ (userTenant' : List Char) (fileExists' : List (List Char) → Bool),
        postSignedUrl userTenant' fileExists' b = IssueOutcome.badRequest400) := by
  constructor
  · constructor
    · intro h
      by_contra hc
      push_neg at hc
      simp only [Bool.not_eq_true] at hc
      simp only [postSignedUrl] at h
      rw [if_neg (by simp [hc.1, hc.2.1, hc.2.2])] at h
      split at h
      all_goals try split at h
      all_goals try split at h
      all_goals simp at h
    · intro h
      simp [postSignedUrl, h]
  · intro h userTenant' fileExists'
    simp [postSignedUrl, h]

/-- Witness for C8 (amended) at a request missing its filename. -/
theorem c8_missing_fields_amended_witness :
    postSignedUrl (strL "T") (fun _ => true)
        { tenantId := some (strL "T"), scope := some (strL "s"),
          ownerId := some (strL "o"), filename := none } =
      IssueOutcome.badRequest400 :=
  (c8_missing_fields_amended (strL "T") (fun _ => true)
    { tenantId := some (strL "T"), scope := some (strL "s"),
      ownerId := some (strL "o"), filename := none }).2
    (Or.inl (by decide)) (strL "T") (fun _ => true)

/-- C9: for a URL of the secure shape whose token payload decodes to
parseable (flat) JSON, `extractFileMetadataFromUrl` returns an object
built by property access on the parsed payload without validating
presence — fields missing from the payload come back `none`
(`undefined`) inside a `some` result rather than making the whole
result `null`. -/
theorem c9_payload_fields_unvalidated (json sigTail : List Char)
    (pairs : List (List Char × Jval))
    (hparse : jsonParseFlat json = some pairs)
    (hascii : ∀ c ∈ json, c.toNat < 256)
    (hsq : '?' ∉ sigTail) (hss : '/' ∉ sigTail) :
    extractFileMetadataFromUrl
        (strL "/files/secure/" ++ (base64urlEncode (strBytes json) ++ '.' :: sigTail)) =
      some
        { filename := jlookup (strL "filename") pairs
          scope := jlookup (strL "scope") pairs
          ownerId := jlookup (strL "ownerId") pairs
          tenantId := jlookup (strL "tenantId") pairs } :=
  extract_secure_generic json sigTail pairs hparse hascii hsq hss

/-- Witness for C9 on a payload that lacks all four grant fields: the
result is `some` of an object with all fields `undefined`. -/
theorem c9_payload_fields_unvalidated_witness :
    extractFileMetadataFromUrl
        (strL "/files/secure/" ++
          (base64urlEncode (strBytes (strL "\x7b\"a\":\"b\"\x7d")) ++ '.' :: strL "sig")) =
      some { filename := none, scope := none, ownerId := none, tenantId := none } := by
  rw [c9_payload_fields_unvalidated (strL "\x7b\"a\":\"b\"\x7d") (strL "sig")
    [(strL "a", Jval.str (strL "b"))] (by decide) (by decide) (by decide) (by decide)]
  decide

/-- C7: extracting metadata from a signed URL generated for a grant
recovers exactly the grant's four fields, by decoding only the token's
payload segment — no signature verification is involved (the MAC is an
arbitrary function here). -/
theorem c7_roundtrip_extraction (mac : List Nat → List Nat)
    (now expiresInMinutes : Nat) (g : GrantInput) (action : List Char)
    (ht : '"' ∉ g.tenantId) (hs : '"' ∉ g.scope) (ho : '"' ∉ g.ownerId)
    (hf : '"' ∉ g.filename) (ha : '"' ∉ action)
    (ht2 : ∀ c ∈ g.tenantId, c.toNat < 256) (hs2 : ∀ c ∈ g.scope, c.toNat < 256)
    (ho2 : ∀ c ∈ g.ownerId, c.toNat < 256) (hf2 : ∀ c ∈ g.filename, c.toNat < 256)
    (ha2 : ∀ c ∈ action, c.toNat < 256) :
    extractFileMetadataFromUrl (generateSignedUrl mac now g action expiresInMinutes).1 =
      some
        { filename := some (Jval.str g.filename)
          scope := some (Jval.str g.scope)
          ownerId := some (Jval.str g.ownerId)
          tenantId := some (Jval.str g.tenantId) } := by
  have hurl : (generateSignedUrl mac now g action expiresInMinutes).1 =
      strL "/files/secure/" ++ (base64urlEncode (strBytes
        (jsonOfGrant g action now (now + expiresInMinutes * 60000))) ++ '.' ::
        base64urlEncode (mac (strBytes (base64urlEncode (strBytes
          (jsonOfGrant g action now (now + expiresInMinutes * 60000))))))) := by
    simp [generateSignedUrl, encodeToken]
  rw [hurl]
  have hparse := jsonParse_jsonOfGrant g action now (now + expiresInMinutes * 60000)
    ht hs ho hf ha
  have hascii : ∀ c ∈ jsonOfGrant g action now (now + expiresInMinutes * 60000),
      c.toNat < 256 := by
    intro c hc
    simp only [jsonOfGrant, List.append_assoc, List.mem_append] at hc
    rcases hc with hc | hc | hc | hc | hc | hc | hc | hc | hc | hc | hc | hc | hc | hc | hc
    · exact (show ∀ x ∈ strL "\x7b\"tenantId\":\"", x.toNat < 256 by decide) _ hc
    · exact ht2 _ hc
    · exact (show ∀ x ∈ strL "\",\"scope\":\"", x.toNat < 256 by decide) _ hc
    · exact hs2 _ hc
    · exact (show ∀ x ∈ strL "\",\"ownerId\":\"", x.toNat < 256 by decide) _ hc
    · exact ho2 _ hc
    · exact (show ∀ x ∈ strL "\",\"filename\":\"", x.toNat < 256 by decide) _ hc
    · exact hf2 _ hc
    · exact (show ∀ x ∈ strL "\",\"action\":\"", x.toNat < 256 by decide) _ hc
    · exact ha2 _ hc
    · exact (show ∀ x ∈ strL "\",\"issuedAt\":", x.toNat < 256 by decide) _ hc
    · exact (natChars_digit hc).2.2
    · exact (show ∀ x ∈ strL ",\"expiresAt\":", x.toNat < 256 by decide) _ hc
    · exact (natChars_digit hc).2.2
    · exact (show ∀ x ∈ strL "\x7d", x.toNat < 256 by decide) _ hc
  have hsq : '?' ∉ base64urlEncode (mac (strBytes (base64urlEncode (strBytes
      (jsonOfGrant g action now (now + expiresInMinutes * 60000)))))) :=
    fun h => (alpha_char_facts _ (mem_base64urlEncode h)).1 rfl
  have hss : '/' ∉ base64urlEncode (mac (strBytes (base64urlEncode (strBytes
      (jsonOfGrant g action now (now + expiresInMinutes * 60000)))))) :=
    fun h => (alpha_char_facts _ (mem_base64urlEncode h)).2.2.2 rfl
  rw [extract_secure_generic _ _ _ hparse hascii hsq hss]
  simp [jlookup, strL]

/-- Witness for C7 on a concrete grant, clock and MAC. -/
theorem c7_roundtrip_extraction_witness :
    extractFileMetadataFromUrl
        (generateSignedUrl (fun _ => [1, 2, 3]) 1000
          ⟨strL "t1", strL "tasks", strL "o1", strL "a.png"⟩ (strL "view") 60).1 =
      some
        { filename := some (Jval.str (strL "a.png"))
          scope := some (Jval.str (strL "tasks"))
          ownerId := some (Jval.str (strL "o1"))
          tenantId := some (Jval.str (strL "t1")) } :=
  c7_roundtrip_extraction (fun _ => [1, 2, 3]) 1000 60
    ⟨strL "t1", strL "tasks", strL "o1", strL "a.png"⟩ (strL "view")
    (by decide) (by decide) (by decide) (by decide) (by decide)
    (by decide) (by decide) (by decide) (by decide) (by decide)

/-- C6: on a legacy-shaped URL whose path has the segment `uploads`
followed by the four segments tenantId, scope, ownerId, filename (the
query string being ignored), `extractFileMetadataFromUrl` returns the
four fields positionally, with the filename percent-decoded. -/
theorem c6_legacy_extraction (pfx t s o f q fdec : List Char)
    (hpq : '?' ∉ pfx) (htq : '?' ∉ t) (hsq : '?' ∉ s) (hoq : '?' ∉ o) (hfq : '?' ∉ f)
    (hts : '/' ∉ t) (hss : '/' ∉ s) (hos : '/' ∉ o) (hfs : '/' ∉ f)
    (hq : q = [] ∨ ∃ q', q = '?' :: q')
    (hsec : containsSeq (strL "/files/secure/")
      (pfx ++ ('/' :: (strL "uploads" ++ '/' :: (t ++ '/' :: (s ++ '/' :: (o ++ '/' :: f)))))) = false)
    (hup : strL "uploads" ∉ splitOnCh '/' pfx)
    (hdec : percentDecode f = some fdec) :
    extractFileMetadataFromUrl
        (pfx ++ strL "/uploads/" ++ t ++ strL "/" ++ s ++ strL "/" ++ o ++ strL "/" ++
          f ++ q) =
      some
        { filename := some (Jval.str fdec)
          scope := some (Jval.str s)
          ownerId := some (Jval.str o)
          tenantId := some (Jval.str t) } := by
  have hurl : pfx ++ strL "/uploads/" ++ t ++ strL "/" ++ s ++ strL "/" ++ o ++
      strL "/" ++ f ++ q =
      (pfx ++ ('/' :: (strL "uploads" ++ '/' :: (t ++ '/' :: (s ++ '/' :: (o ++ '/' :: f)))))) ++ q := by
    simp [strL, List.append_assoc]
  rw [hurl]
  have hqbase : '?' ∉ pfx ++ ('/' :: (strL "uploads" ++ '/' :: (t ++ '/' :: (s ++ '/' :: (o ++ '/' :: f))))) := by
    intro h
    simp only [List.mem_append, List.mem_cons] at h
    rcases h with h | h | h | h | h | h | h | h | h | h | h
    · exact hpq h
    · exact absurd h (by decide)
    · exact absurd h (by
        have : ∀ x ∈ strL "uploads", x ≠ '?' := by decide
        exact fun hx => this _ hx rfl)
    · exact absurd h (by decide)
    · exact htq h
    · exact absurd h (by decide)
    · exact hsq h
    · exact absurd h (by decide)
    · exact hoq h
    · exact absurd h (by decide)
    · exact hfq h
  have hnq : headD (splitOnCh '?' ((pfx ++ ('/' :: (strL "uploads" ++ '/' :: (t ++ '/' :: (s ++ '/' :: (o ++ '/' :: f)))))) ++ q)) [] = pfx ++ ('/' :: (strL "uploads" ++ '/' :: (t ++ '/' :: (s ++ '/' :: (o ++ '/' :: f))))) := by
    rcases hq with rfl | ⟨q', rfl⟩
    · rw [List.append_nil, splitOnCh_no_sep hqbase]
      rfl
    · rw [splitOnCh_append_sep, splitOnCh_no_sep hqbase]
      rfl
  have hsplit : splitOnCh '/' (pfx ++ ('/' :: (strL "uploads" ++ '/' :: (t ++ '/' :: (s ++ '/' :: (o ++ '/' :: f)))))) =
      splitOnCh '/' pfx ++ (strL "uploads" :: t :: s :: o :: f :: []) := by
    rw [splitOnCh_append_sep, splitOnCh_append_sep, splitOnCh_append_sep,
      splitOnCh_append_sep, splitOnCh_append_sep,
      splitOnCh_no_sep (show '/' ∉ strL "uploads" by decide),
      splitOnCh_no_sep hts, splitOnCh_no_sep hss, splitOnCh_no_sep hos,
      splitOnCh_no_sep hfs]
    simp
  have hidx : indexOfSeg (strL "uploads")
      (splitOnCh '/' pfx ++ (strL "uploads" :: t :: s :: o :: f :: [])) =
      some (splitOnCh '/' pfx).length := indexOfSeg_append_self hup _
  have hbranch : extractSecureBranch (pfx ++ ('/' :: (strL "uploads" ++ '/' :: (t ++ '/' :: (s ++ '/' :: (o ++ '/' :: f)))))) = none := by
    rw [extractSecureBranch, if_neg (by simp [hsec])]
  simp only [extractFileMetadataFromUrl, hnq, hbranch, hsplit, hidx]
  rw [if_neg (by simp [List.length_append])]
  simp only [getPart_append]
  simp [getPart, hdec]

/-- Witness for C6 on the specification's concrete example URL. -/
theorem c6_legacy_extraction_witness :
    extractFileMetadataFromUrl
        (strL "/api/v1/uploads/t1/tasks/o1/report%20final.pdf?token=xyz") =
      some
        { filename := some (Jval.str (strL "report final.pdf"))
          scope := some (Jval.str (strL "tasks"))
          ownerId := some (Jval.str (strL "o1"))
          tenantId := some (Jval.str (strL "t1")) } := by
  have h := c6_legacy_extraction (strL "/api/v1") (strL "t1") (strL "tasks") (strL "o1")
    (strL "report%20final.pdf") (strL "?token=xyz") (strL "report final.pdf")
    (by decide) (by decide) (by decide) (by decide) (by decide)
    (by decide) (by decide) (by decide) (by decide)
    (Or.inr ⟨strL "token=xyz", by decide⟩) (by decide) (by decide) (by decide)
  simpa [strL] using h
